import Mathlib

/-!
Verification development for the sparse (inducing-point) Gaussian-process
regression model of `sgp.py` (class `SparseGaussianProcess`) and its kernel
helpers.

The linear-algebra core is embedded shallowly over `ℝ`:

* descriptor batches are `Matrix (Fin d) ι ℝ` with the column index type `ι`
  tracking the batch size (`F` for the full training set, `S` for the
  inducing/sparse set), so that growing a set corresponds to a sum type
  `F ⊕ Fin k`;
* the mutable object state is the record `GPState`;
* the update methods that call external LAPACK factorization routines
  (`torch.linalg.cholesky`, `stable_qr`) are embedded as relations between
  the pre- and post-state, with the factors as relational witnesses
  constrained by the factorization postconditions;
* a second, dynamically-shaped embedding (`PMat`/`PVec`/`DynState`) models
  the tensor shapes and the statement-by-statement mutation order of the
  source, which is what the shape-error and invariant claims are about.
-/

open Matrix

open scoped ENNReal

noncomputable section

/-- The function `torch.clamp(x, min=c)`: the maximum of `x` and `c`. -/
def clampMin (x c : ℝ) : ℝ := max x c

/-- Shallow embedding of the module-level function `kernel` of `sgp.py`
(squared-exponential kernel on the column vectors of two descriptor batches)
in the default `diag=False` mode.  `x1` is a `d × m` batch and `x2` a `d × n`
batch; the amplitude hyperparameter `noise` is clamped from below at `1e-8`
before use, as in the source (`torch.clamp(noise, min=1e-8)`). -/
def kernel {d : ℕ} {m n : Type} (x1 : Matrix (Fin d) m ℝ) (x2 : Matrix (Fin d) n ℝ)
    (noise l : ℝ) : Matrix m n ℝ :=
  Matrix.of fun i j =>
    clampMin noise 1e-8 * clampMin noise 1e-8 *
      Real.exp (-0.5 * (∑ k, (x1 k i - x2 k j) ^ 2) / (l * l))

/-- The `diag=True` branch of `kernel`: the source asserts that both batches
have the same number of columns (enforced here by the shared column index
type `n`), and the result is the vector of per-column kernel values. -/
def kernelDiag {d : ℕ} {n : Type} (x1 x2 : Matrix (Fin d) n ℝ) (noise l : ℝ) : n → ℝ :=
  fun j =>
    clampMin noise 1e-8 * clampMin noise 1e-8 *
      Real.exp (-0.5 * (∑ k, (x1 k j - x2 k j) ^ 2) / (l * l))

/-- Shallow embedding of the mutable state of a `SparseGaussianProcess`
object.  Descriptor batches are `d × count` matrices whose column index types
are `F` (full training set) and `S` (inducing/sparse set).  The field `Lss`
holds the lower Cholesky factor that the source stores inside
`self.Kss = CholLinearOperator(Lss, upper=False)`; the matrix that operator
represents is `Lss * Lssᵀ`. -/
structure GPState (d : ℕ) (F S : Type) [Fintype F] [DecidableEq F]
    [Fintype S] [DecidableEq S] : Type where
  full_descriptors : Matrix (Fin d) F ℝ
  sparse_descriptors : Matrix (Fin d) S ℝ
  training_outputs : F → ℝ
  kernel_noise : ℝ
  kernel_length : ℝ
  model_noise : ℝ
  Ksf : Matrix S F ℝ
  Lambda_inv : Matrix F F ℝ
  Lss : Matrix S S ℝ
  U_Sigma : Matrix S S ℝ
  Sigma : Matrix S S ℝ
  alpha : S → ℝ

/-- Entrywise square root on the diagonal, modelling `.sqrt()` on a
`DiagLinearOperator` (the source only applies it to the diagonal operator
`self.Lambda_inv`). -/
def sqrtDiag {F : Type} [DecidableEq F] (M : Matrix F F ℝ) : Matrix F F ℝ :=
  Matrix.diagonal fun i => Real.sqrt (M i i)

/-- Success postcondition of `L = torch.linalg.cholesky(M)`: `L` is a factor
with `L * Lᵀ = M` and `L` is nonsingular (the routine fails on inputs that are
not numerically positive definite, and a successful factor has a positive
diagonal, hence is invertible).  Lower-triangularity of `L` is recorded
separately in the places whose claims need it, because the sum index types
produced by the incremental updates carry no canonical linear order. -/
def CholeskyOf {n : Type} [Fintype n] [DecidableEq n] (L M : Matrix n n ℝ) : Prop :=
  L * Lᵀ = M ∧ IsUnit L.det

variable {d : ℕ} {F S T : Type}

/-- Relational shallow embedding of the private method
`SparseGaussianProcess.__update_Sigma_alpha` in the default
`invert_mode='QR'` branch, executed on the data fields of `s` and producing
the cache fields of `t` (a full rebuild).  The Cholesky factor `Lss` of the
jittered `Kss` and the factorization `stable_qr(B) = (Q, R)` of the stacked
matrix `B = [Λ⁻¹^½·Ksfᵀ ; Lssᵀ]` are produced by external routines and appear
as relational witnesses with their defining postconditions.  The source also
guarantees that `Lss` is lower and `R` upper triangular; those facts are not
needed for the claims about this relation and are omitted, which only makes
the theorems quantifying over the relation stronger. -/
def UpdateSigmaAlphaQR [Fintype F] [DecidableEq F] [Fintype S] [DecidableEq S]
    (s t : GPState d F S) : Prop :=
  ∃ (Lss : Matrix S S ℝ) (Q : Matrix (F ⊕ S) S ℝ) (R : Matrix S S ℝ),
    t.full_descriptors = s.full_descriptors ∧
    t.sparse_descriptors = s.sparse_descriptors ∧
    t.training_outputs = s.training_outputs ∧
    t.kernel_noise = s.kernel_noise ∧
    t.kernel_length = s.kernel_length ∧
    t.model_noise = s.model_noise ∧
    t.Ksf = kernel s.sparse_descriptors s.full_descriptors s.kernel_noise s.kernel_length ∧
    t.Lambda_inv = ((clampMin s.model_noise 1e-8) ^ 2)⁻¹ • 1 ∧
    CholeskyOf Lss
      (kernel s.sparse_descriptors s.sparse_descriptors s.kernel_noise s.kernel_length
        + (1e-8 : ℝ) • 1) ∧
    t.Lss = Lss ∧
    Matrix.fromRows (sqrtDiag t.Lambda_inv * t.Ksfᵀ) Lssᵀ = Q * R ∧
    Qᵀ * Q = 1 ∧
    IsUnit R.det ∧
    t.U_Sigma = R⁻¹ ∧
    t.Sigma = t.U_Sigma * t.U_Sigmaᵀ ∧
    t.alpha = t.Sigma *ᵥ (t.Ksf *ᵥ (t.Lambda_inv *ᵥ s.training_outputs))

/-- Relational shallow embedding of `SparseGaussianProcess.update_full_set`.
New training columns are indexed by `Fin k`; the grown full set is indexed by
`F ⊕ Fin k`.  Only the small `k × k` system `to_invert` is factorized (by an
external Cholesky routine, hence the relational witness `L`).  The source
does not touch `self.U_Sigma` here, so the stale factor is carried over
unchanged; likewise `self.Kss` keeps the old factor.  The two versions of the
`alpha` assignment in the source (lines 198 and 200-202) compute the same
product; the relation records the final one. -/
def UpdateFullSet [Fintype F] [DecidableEq F] [Fintype S] [DecidableEq S] {k : ℕ}
    (s : GPState d F S) (x_train : Matrix (Fin d) (Fin k) ℝ) (y_train : Fin k → ℝ)
    (t : GPState d (F ⊕ Fin k) S) : Prop :=
  let Ksfprime := kernel s.sparse_descriptors x_train s.kernel_noise s.kernel_length
  let to_invert := (s.model_noise ^ 2) • (1 : Matrix (Fin k) (Fin k) ℝ)
    + Ksfprimeᵀ * s.Sigma * Ksfprime
  ∃ L : Matrix (Fin k) (Fin k) ℝ,
    t.full_descriptors = Matrix.fromColumns s.full_descriptors x_train ∧
    t.training_outputs = Sum.elim s.training_outputs y_train ∧
    t.Lambda_inv = ((s.model_noise ^ 2)⁻¹) • 1 ∧
    t.Ksf = Matrix.fromColumns s.Ksf Ksfprime ∧
    CholeskyOf L to_invert ∧
    (let aux := L⁻¹ * Ksfprimeᵀ * s.Sigma
     t.Sigma = s.Sigma - auxᵀ * aux) ∧
    t.alpha = t.Sigma *ᵥ (t.Ksf *ᵥ (t.Lambda_inv *ᵥ t.training_outputs)) ∧
    t.sparse_descriptors = s.sparse_descriptors ∧
    t.kernel_noise = s.kernel_noise ∧
    t.kernel_length = s.kernel_length ∧
    t.model_noise = s.model_noise ∧
    t.Lss = s.Lss ∧
    t.U_Sigma = s.U_Sigma

/-- Entries strictly above the diagonal vanish with respect to the strict
order `lt` on the index type: the matrix is lower triangular. -/
def LowerTri {n : Type} (lt : n → n → Prop) (M : Matrix n n ℝ) : Prop :=
  ∀ i j, lt i j → M i j = 0

/-- Entries strictly below the diagonal vanish: the matrix is upper
triangular. -/
def UpperTri {n : Type} (lt : n → n → Prop) (M : Matrix n n ℝ) : Prop :=
  ∀ i j, lt j i → M i j = 0

/-- The strict order on a block index type `S ⊕ K`: all old indices precede
all new ones, and each side keeps its own order. -/
def sumLt {S K : Type} (ltS : S → S → Prop) (ltK : K → K → Prop) :
    S ⊕ K → S ⊕ K → Prop
  | Sum.inl a, Sum.inl b => ltS a b
  | Sum.inl _, Sum.inr _ => True
  | Sum.inr _, Sum.inl _ => False
  | Sum.inr a, Sum.inr b => ltK a b

/-- Relational shallow embedding of `SparseGaussianProcess.update_sparse_set`.
New inducing columns are indexed by `Fin k`; the grown inducing set by
`S ⊕ Fin k`.  The stored Cholesky factor of `Kss` is extended by the block
construction of the source; `Sigma` and `alpha` are then recomputed by the
V-method over the enlarged inducing set.  Note that the source computes the
new posterior factor into a local variable `U_Sigma` and never assigns
`self.U_Sigma`, so this relation places no constraint on `t.U_Sigma` (in the
running object that field still holds the stale factor of the old, smaller
inducing set; the dynamic embedding below represents that staleness
exactly). -/
def UpdateSparseSet [Fintype F] [DecidableEq F] [Fintype S] [DecidableEq S]
    [LinearOrder S] {k : ℕ} (s : GPState d F S) (x_sparse : Matrix (Fin d) (Fin k) ℝ)
    (t : GPState d F (S ⊕ Fin k)) : Prop :=
  let Kssprime := kernel s.sparse_descriptors x_sparse s.kernel_noise s.kernel_length
  let Ksprimesprime := kernel x_sparse x_sparse s.kernel_noise s.kernel_length
  let Kfsprime := kernel s.full_descriptors x_sparse s.kernel_noise s.kernel_length
  let Lss_inv_Kssp := s.Lss⁻¹ * Kssprime
  ∃ (Lsp : Matrix (Fin k) (Fin k) ℝ) (L_Gamma : Matrix (S ⊕ Fin k) (S ⊕ Fin k) ℝ),
    t.sparse_descriptors = Matrix.fromColumns s.sparse_descriptors x_sparse ∧
    CholeskyOf Lsp (Ksprimesprime - Lss_inv_Ksspᵀ * Lss_inv_Kssp + (1e-8 : ℝ) • 1) ∧
    LowerTri (· < ·) Lsp ∧
    t.Lss = Matrix.fromBlocks s.Lss 0 Lss_inv_Ksspᵀ Lsp ∧
    t.Ksf = Matrix.fromRows s.Ksf Kfsprimeᵀ ∧
    (let Lss_inv := t.Lss⁻¹
     let V := t.Ksfᵀ * Lss_invᵀ
     let Lambda_inv_sqrt_V := sqrtDiag s.Lambda_inv * V
     let Gamma := 1 + Lambda_inv_sqrt_Vᵀ * Lambda_inv_sqrt_V
     CholeskyOf L_Gamma Gamma ∧
     LowerTri (sumLt (· < ·) (· < ·)) L_Gamma ∧
     t.Sigma = (L_Gamma⁻¹ * Lss_inv)ᵀ * ((L_Gamma⁻¹ * Lss_inv)ᵀ)ᵀ ∧
     t.alpha = t.Sigma *ᵥ (t.Ksf *ᵥ (s.Lambda_inv *ᵥ s.training_outputs))) ∧
    t.full_descriptors = s.full_descriptors ∧
    t.training_outputs = s.training_outputs ∧
    t.kernel_noise = s.kernel_noise ∧
    t.kernel_length = s.kernel_length ∧
    t.model_noise = s.model_noise ∧
    t.Lambda_inv = s.Lambda_inv

/-- The matrix whose inverse the QR path of the full rebuild computes:
`(Kss + 1e-8·I) + Ksf·Λ⁻¹·Ksfᵀ`, expressed through `kernel` on the current
descriptors and the stored `Λ⁻¹`. -/
def Amat [Fintype F] [DecidableEq F] [Fintype S] [DecidableEq S]
    (s : GPState d F S) : Matrix S S ℝ :=
  (kernel s.sparse_descriptors s.sparse_descriptors s.kernel_noise s.kernel_length
      + (1e-8 : ℝ) • 1)
    + kernel s.sparse_descriptors s.full_descriptors s.kernel_noise s.kernel_length
        * s.Lambda_inv
        * (kernel s.sparse_descriptors s.full_descriptors s.kernel_noise s.kernel_length)ᵀ

/-- The consistency invariant tying the cached factorization products of a
state to its data fields, as established by a successful full rebuild with a
well-behaved observation-noise hyperparameter (`model_noise` at least the
clamp floor `1e-8`, so the clamped and unclamped noise agree). -/
structure GoodState [Fintype F] [DecidableEq F] [Fintype S] [DecidableEq S]
    (s : GPState d F S) : Prop where
  noise_ge : (1e-8 : ℝ) ≤ s.model_noise
  lss_eq : s.Lss * s.Lssᵀ
    = kernel s.sparse_descriptors s.sparse_descriptors s.kernel_noise s.kernel_length
      + (1e-8 : ℝ) • 1
  ksf_eq : s.Ksf
    = kernel s.sparse_descriptors s.full_descriptors s.kernel_noise s.kernel_length
  lambda_eq : s.Lambda_inv = ((s.model_noise ^ 2)⁻¹) • 1
  posdef : (Amat s).PosDef
  sigma_eq : s.Sigma = (Amat s)⁻¹
  alpha_eq : s.alpha = s.Sigma *ᵥ (s.Ksf *ᵥ (s.Lambda_inv *ᵥ s.training_outputs))

/-- States reachable from `s` by a (possibly empty) sequence of successive
`update_full_set` calls: the inducing index type `S` stays fixed while the
full-set index type grows by `⊕ Fin k` at each step. -/
inductive ReachableUFS {d : ℕ} {S : Type} [Fintype S] [DecidableEq S] :
    {F : Type} → [instF : Fintype F] → [instDF : DecidableEq F] → GPState d F S →
    {G : Type} → [instG : Fintype G] → [instDG : DecidableEq G] → GPState d G S → Prop
  | refl {F : Type} [Fintype F] [DecidableEq F] (s : GPState d F S) : ReachableUFS s s
  | step {F : Type} [Fintype F] [DecidableEq F] {k : ℕ} {G : Type} [Fintype G]
      [DecidableEq G] {s : GPState d F S} {x_train : Matrix (Fin d) (Fin k) ℝ}
      {y_train : Fin k → ℝ} {t : GPState d (F ⊕ Fin k) S} {u : GPState d G S} :
      UpdateFullSet s x_train y_train t → ReachableUFS t u → ReachableUFS s u

/-- Shallow embedding of `SparseGaussianProcess.get_likelihood`.  The three
log-determinants are taken exactly the way the stored operators compute them:
`self.Kss.logdet()` on a `CholLinearOperator` is twice the sum of the logs of
the diagonal of the stored root `Lss`; the log-determinant of the diagonal
operator `Λ⁻¹` is the sum of the logs of its diagonal; and the
log-determinant of the triangular factor `U_Σ` is the sum of the logs of its
diagonal. -/
def get_likelihood [Fintype F] [DecidableEq F] [Fintype S] [DecidableEq S]
    (s : GPState d F S) : ℝ :=
  let fsize : ℝ := Fintype.card F
  let fit_term :=
    -0.5 * (Matrix.vecMul s.training_outputs s.Lambda_inv ⬝ᵥ
      (s.training_outputs - s.Ksfᵀ *ᵥ s.alpha))
  let logdet_Xi_inv :=
    -(2 * ∑ i, Real.log (s.Lss i i)) - (∑ i, Real.log (s.Lambda_inv i i))
      - 2 * ∑ i, Real.log (s.U_Sigma i i)
  fit_term - 0.5 * logdet_Xi_inv - fsize * 0.5 * Real.log (2 * Real.pi)

/-- The two predictive-variance modes of `get_predictions`:
`'sor'` (subset of regressors) and `'dtc'` (deterministic training
conditional, the default). -/
inductive PredMode : Type
  | sor : PredMode
  | dtc : PredMode

/-- Shallow embedding of `SparseGaussianProcess.get_predictions`.  The query
batch is a `d × p` matrix with column index type `T`; the result list holds
the requested statistics in source order (mean first, then variance), each a
vector over the query columns.  `self.Kss.cholesky(upper=False).solve(Kst)`
is the triangular solve `Lss⁻¹ * Kst`; the final `torch.abs` is applied to
whichever variance was computed (so the `'sor'` variance gets it twice). -/
def get_predictions [Fintype F] [DecidableEq F] [Fintype S] [DecidableEq S] [Fintype T]
    (s : GPState d F S) (x_test : Matrix (Fin d) T ℝ) (mean_var : Bool × Bool)
    (mode : PredMode) : List (T → ℝ) :=
  let Kst := kernel s.sparse_descriptors x_test s.kernel_noise s.kernel_length
  (if mean_var.1 then [Kstᵀ *ᵥ s.alpha] else []) ++
    (if mean_var.2 then
      (let var : T → ℝ :=
        match mode with
        | PredMode.sor => fun u => |(Kstᵀ * s.Sigma * Kst) u u|
        | PredMode.dtc => fun u =>
            kernelDiag x_test x_test s.kernel_noise s.kernel_length u
              - (∑ i, ((s.Lss⁻¹ * Kst) i u) ^ 2)
              + (Kstᵀ * s.Sigma * Kst) u u
      [fun u => |var u|])
    else [])

/-- Method-call form of `get_predictions`: the body of the source method
contains no assignment to any `self` field, so the post-call state is the
input state unchanged. -/
def get_predictions_call [Fintype F] [DecidableEq F] [Fintype S] [DecidableEq S] [Fintype T]
    (s : GPState d F S) (x_test : Matrix (Fin d) T ℝ) (mean_var : Bool × Bool)
    (mode : PredMode) : GPState d F S × List (T → ℝ) :=
  (s, get_predictions s x_test mean_var mode)

open scoped Classical in
/-- One-to-one embedding of the `while` loop of
`SparseGaussianProcess.optimize_hyperparameters`.  The likelihood values
produced by the successive full rebuilds are abstracted as a sequence
`lik : ℕ → ℝ` (`lik n` is the value of `get_likelihood` after `n` optimizer
steps); the Rprop step and the autograd machinery are external collaborators
that only influence the loop through this sequence.  `dlikelihood` lives in
`ℝ≥0∞` so that the `np.inf` sentinel and the quotient in the stopping test
`np.abs(dlikelihood / prev_likelihood) > rtol` are modelled exactly
(including `inf / x = inf` and `x / 0 = inf` for `x ≠ 0`); `fuel` bounds the
number of iterations we are willing to unfold (the source loop has no
iteration cap), with `none` meaning the loop is still running. -/
def optimize_loop (lik : ℕ → ℝ) (rtol : ℝ) :
    ℕ → ℕ → ℝ≥0∞ → ℝ → Option ℕ
  | 0, _, _, _ => none
  | fuel + 1, counter, dlikelihood, prev_likelihood =>
    if ENNReal.ofReal rtol < dlikelihood / ENNReal.ofReal |prev_likelihood| then
      optimize_loop lik rtol fuel (counter + 1)
        (ENNReal.ofReal |prev_likelihood - lik (counter + 1)|) (lik (counter + 1))
    else
      some counter

/-- Entry point of the embedded `optimize_hyperparameters` loop: before the
loop the likelihood after the initial rebuild is `lik 0`, `dlikelihood` is
the sentinel `np.inf` (`⊤`), the previous likelihood is `lik 0`, and the
counter starts at `0`; the source returns the counter. -/
def optimize_hyperparameters (lik : ℕ → ℝ) (rtol : ℝ) (fuel : ℕ) : Option ℕ :=
  optimize_loop lik rtol fuel 0 ⊤ (lik 0)

/-!
Dynamically-shaped embedding.  Torch tensors carry their shapes at run time
and every operation checks shape compatibility when it executes, which is
exactly what the shape-error and count-invariant claims are about; the typed
embedding above cannot even express a shape mismatch.  `PMat`/`PVec` are
matrices and vectors packed with their dimensions, the operations below
return `Except String` mirroring the torch/linear-operator shape checks, and
the three mutating methods are transcribed statement by statement so that the
state visible when an exception escapes is the partially-mutated one, as in
Python.  The LAPACK-backed routines (Cholesky, QR, triangular inverse) enter
through an explicit oracle whose only specified behavior is the shape of its
results. -/

/-- A real matrix packed with its dimensions (a 2-D torch tensor). -/
structure PMat : Type where
  rows : ℕ
  cols : ℕ
  entries : Fin rows → Fin cols → ℝ

/-- A real vector packed with its length (a 1-D torch tensor). -/
structure PVec : Type where
  len : ℕ
  entries : Fin len → ℝ

/-- The tensor concatenation `torch.cat((A, B), dim=1)`: requires equal row
counts. -/
def catCols (A B : PMat) : Except String PMat :=
  if h : B.rows = A.rows then
    Except.ok ⟨A.rows, A.cols + B.cols, fun i j =>
      Fin.addCases (fun j1 => A.entries i j1) (fun j2 => B.entries (Fin.cast h.symm i) j2) j⟩
  else Except.error "torch.cat dim 1: sizes must match except in dimension 1"

/-- The tensor concatenation `torch.cat((A, B), dim=0)`: requires equal
column counts. -/
def catRows (A B : PMat) : Except String PMat :=
  if h : B.cols = A.cols then
    Except.ok ⟨A.rows + B.rows, A.cols, fun i j =>
      Fin.addCases (fun i1 => A.entries i1 j) (fun i2 => B.entries i2 (Fin.cast h.symm j)) i⟩
  else Except.error "torch.cat dim 0: sizes must match except in dimension 0"

/-- Concatenation of 1-D tensors: never fails. -/
def catVecP (u v : PVec) : PVec :=
  ⟨u.len + v.len, fun i => Fin.addCases (fun i1 => u.entries i1) (fun i2 => v.entries i2) i⟩

/-- Tensor transpose. -/
def transposeP (A : PMat) : PMat := ⟨A.cols, A.rows, fun i j => A.entries j i⟩

/-- Matrix-matrix product with the torch shape check on the inner
dimensions. -/
def pmul (A B : PMat) : Except String PMat :=
  if h : A.cols = B.rows then
    Except.ok ⟨A.rows, B.cols, fun i j =>
      ∑ k : Fin A.cols, A.entries i k * B.entries (Fin.cast h k) j⟩
  else Except.error "matmul: inner dimension mismatch"

/-- Matrix-vector product with the torch shape check. -/
def pmulVec (A : PMat) (v : PVec) : Except String PVec :=
  if h : A.cols = v.len then
    Except.ok ⟨A.rows, fun i => ∑ k : Fin A.cols, A.entries i k * v.entries (Fin.cast h k)⟩
  else Except.error "matmul: vector dimension mismatch"

/-- Elementwise sum with the torch shape check. -/
def padd (A B : PMat) : Except String PMat :=
  if h : B.rows = A.rows ∧ B.cols = A.cols then
    Except.ok ⟨A.rows, A.cols, fun i j =>
      A.entries i j + B.entries (Fin.cast h.1.symm i) (Fin.cast h.2.symm j)⟩
  else Except.error "add: shape mismatch"

/-- Elementwise difference with the torch shape check. -/
def psub (A B : PMat) : Except String PMat :=
  if h : B.rows = A.rows ∧ B.cols = A.cols then
    Except.ok ⟨A.rows, A.cols, fun i j =>
      A.entries i j - B.entries (Fin.cast h.1.symm i) (Fin.cast h.2.symm j)⟩
  else Except.error "sub: shape mismatch"

/-- Scalar multiple of a tensor. -/
def smulP (c : ℝ) (A : PMat) : PMat := ⟨A.rows, A.cols, fun i j => c * A.entries i j⟩

/-- The identity tensor `torch.eye(n)`. -/
def eyeP (n : ℕ) : PMat := ⟨n, n, fun i j => if i = j then 1 else 0⟩

/-- The zero tensor `torch.zeros((r, c))`. -/
def zerosP (r c : ℕ) : PMat := ⟨r, c, fun _ _ => 0⟩

/-- The operator `ConstantDiagLinearOperator(c, n)` as a dense matrix. -/
def constDiagP (c : ℝ) (n : ℕ) : PMat := ⟨n, n, fun i j => if i = j then c else 0⟩

/-- Entrywise square root, modelling `.sqrt()` on a diagonal operator. -/
def sqrtDiagP (A : PMat) : PMat := ⟨A.rows, A.cols, fun i j => Real.sqrt (A.entries i j)⟩

/-- The `kernel` function of `sgp.py` on packed matrices, with its dimension
assertion (`diag=False` mode, which is the one the mutating methods use). -/
def pkernelP (x1 x2 : PMat) (noise l : ℝ) : Except String PMat :=
  if h : x1.rows = x2.rows then
    Except.ok ⟨x1.cols, x2.cols, fun i j =>
      clampMin noise 1e-8 * clampMin noise 1e-8 *
        Real.exp
          (-0.5 * (∑ k : Fin x1.rows, (x1.entries k i - x2.entries (Fin.cast h k) j) ^ 2)
            / (l * l))⟩
  else Except.error "vector dimensions of x1 and x2 are incompatible"

/-- The `kernel` function of `sgp.py` on packed matrices in `diag=True` mode:
beyond the shared dimension assertion it asserts equal column counts and
returns the vector of per-column kernel values. -/
def pkernelDiagP (x1 x2 : PMat) (noise l : ℝ) : Except String PVec :=
  if h : x1.rows = x2.rows then
    if hc : x1.cols = x2.cols then
      Except.ok ⟨x1.cols, fun j =>
        clampMin noise 1e-8 * clampMin noise 1e-8 *
          Real.exp
            (-0.5 *
                (∑ k : Fin x1.rows,
                  (x1.entries k j - x2.entries (Fin.cast h k) (Fin.cast hc j)) ^ 2)
              / (l * l))⟩
    else Except.error "diag = True requires same dims"
  else Except.error "vector dimensions of x1 and x2 are incompatible"

/-- The `invert_mode` strategy selector fixed at construction time. -/
inductive InvertMode : Type
  | N : InvertMode
  | V : InvertMode
  | QR : InvertMode

/-- The dynamically-shaped state of a `SparseGaussianProcess` object: the
fields of `__init__` in source order, with the cached products `Option`-typed
because `__init__` sets them to `None`.  The `Kss` field stores the root of
the `CholLinearOperator`, i.e. the (extended) Cholesky factor. -/
structure DynState : Type where
  descriptor_dim : ℕ
  full_descriptors : PMat
  sparse_descriptors : PMat
  training_outputs : PVec
  kernel_noise : ℝ
  kernel_length : ℝ
  model_noise : ℝ
  invert_mode : InvertMode
  Ksf : Option PMat
  Lambda_inv : Option PMat
  Kss : Option PMat
  U_Sigma : Option PMat
  Sigma : Option PMat
  alpha : Option PVec

/-- The constructor `SparseGaussianProcess(descriptor_dim, invert_mode)`. -/
def sgp_init (descriptor_dim : ℕ) (invert_mode : InvertMode) : DynState where
  descriptor_dim := descriptor_dim
  full_descriptors := ⟨descriptor_dim, 0, fun _ j => Fin.elim0 j⟩
  sparse_descriptors := ⟨descriptor_dim, 0, fun _ j => Fin.elim0 j⟩
  training_outputs := ⟨0, fun i => Fin.elim0 i⟩
  kernel_noise := 1
  kernel_length := 1
  model_noise := 0.01
  invert_mode := invert_mode
  Ksf := none
  Lambda_inv := none
  Kss := none
  U_Sigma := none
  Sigma := none
  alpha := none

/-- Sequencing of a fallible tensor expression inside a method body: if the
expression raises, the exception escapes with the state as mutated so far
(`s`); otherwise the continuation receives the value. -/
def bindE {α : Type} (e : Except String α) (s : DynState)
    (k : α → Except String Unit × DynState) : Except String Unit × DynState :=
  match e with
  | Except.error msg => (Except.error msg, s)
  | Except.ok v => k v

/-- Reading a cached product that may still be `None` (using it in a tensor
expression then raises, as in Python). -/
def getCache (c : Option PMat) (s : DynState)
    (k : PMat → Except String Unit × DynState) : Except String Unit × DynState :=
  match c with
  | none => (Except.error "cached operand is None", s)
  | some A => k A

/-- The external LAPACK-backed routines used by the methods, together with
the shape contracts the surrounding code relies on: `torch.linalg.cholesky`
(which may fail on inputs that are not numerically positive definite),
`stable_qr`, and triangular `inverse()`.  Only the shapes of the results are
specified; the numeric content is arbitrary. -/
structure LinAlgOracle : Type where
  chol : PMat → Except String PMat
  qr : PMat → PMat × PMat
  inv : PMat → PMat
  chol_rows : ∀ A B, chol A = Except.ok B → B.rows = A.rows
  chol_cols : ∀ A B, chol A = Except.ok B → B.cols = A.cols
  qr_r_rows : ∀ A, (qr A).2.rows = A.cols
  qr_r_cols : ∀ A, (qr A).2.cols = A.cols
  inv_rows : ∀ A, (inv A).rows = A.rows
  inv_cols : ∀ A, (inv A).cols = A.cols

/-- Statement-by-statement transcription of the private method
`__update_Sigma_alpha` (all three `invert_mode` branches).  Mutations happen
in source order, so a failing tensor operation leaves every previous
assignment in place. -/
def update_Sigma_alpha_dyn (o : LinAlgOracle) (s : DynState) :
    Except String Unit × DynState :=
  bindE (pkernelP s.full_descriptors s.full_descriptors s.kernel_noise s.kernel_length) s
    fun _Kff =>
  bindE (pkernelP s.sparse_descriptors s.sparse_descriptors s.kernel_noise s.kernel_length) s
    fun Kss0 =>
  bindE (pkernelP s.sparse_descriptors s.full_descriptors s.kernel_noise s.kernel_length) s
    fun Ksf =>
  let s1 : DynState := { s with Ksf := some Ksf }
  let Lambda_inv :=
    constDiagP (((clampMin s1.model_noise 1e-8) ^ 2)⁻¹) s1.full_descriptors.cols
  let s2 : DynState := { s1 with Lambda_inv := some Lambda_inv }
  bindE (padd Kss0 (smulP 1e-8 (eyeP s2.sparse_descriptors.cols))) s2 fun KssJ =>
  bindE (o.chol KssJ) s2 fun Lss =>
  let s3 : DynState := { s2 with Kss := some Lss }
  let tail := fun (U_Sigma : PMat) (s4 : DynState) =>
    bindE (pmul U_Sigma (transposeP U_Sigma)) s4 fun Sigma =>
    let s5 : DynState := { s4 with Sigma := some Sigma }
    bindE (pmulVec Lambda_inv s5.training_outputs) s5 fun a1 =>
    let s6 : DynState := { s5 with alpha := some a1 }
    bindE (pmulVec Ksf a1) s6 fun a2 =>
    let s7 : DynState := { s6 with alpha := some a2 }
    bindE (pmulVec Sigma a2) s7 fun a3 =>
    (Except.ok (), { s7 with alpha := some a3 })
  match s3.invert_mode with
  | InvertMode.N =>
    bindE (pmul Ksf Lambda_inv) s3 fun KL =>
    bindE (pmul KL (transposeP Ksf)) s3 fun KLK =>
    bindE (padd KssJ KLK) s3 fun Sigma_inv0 =>
    bindE (padd Sigma_inv0 (smulP 1 (eyeP s3.sparse_descriptors.cols))) s3 fun Sigma_inv =>
    bindE (o.chol Sigma_inv) s3 fun L_Sigma_inv =>
    let U_Sigma := transposeP (o.inv L_Sigma_inv)
    tail U_Sigma { s3 with U_Sigma := some U_Sigma }
  | InvertMode.V =>
    let Lss_inv := o.inv Lss
    bindE (pmul (transposeP Ksf) (transposeP Lss_inv)) s3 fun V =>
    bindE (pmul (sqrtDiagP Lambda_inv) V) s3 fun LsV =>
    bindE (pmul (transposeP LsV) LsV) s3 fun G0 =>
    bindE (padd (eyeP V.cols) G0) s3 fun Gamma =>
    bindE (o.chol Gamma) s3 fun L_Gamma =>
    bindE (pmul (o.inv L_Gamma) Lss_inv) s3 fun UT =>
    let U_Sigma := transposeP UT
    tail U_Sigma { s3 with U_Sigma := some U_Sigma }
  | InvertMode.QR =>
    bindE (pmul (sqrtDiagP Lambda_inv) (transposeP Ksf)) s3 fun B1 =>
    bindE (catRows B1 (transposeP Lss)) s3 fun B =>
    let R := (o.qr B).2
    let U_Sigma := o.inv R
    tail U_Sigma { s3 with U_Sigma := some U_Sigma }

/-- Statement-by-statement transcription of `update_model`: the assertion on
`x_train`, the three concatenations in source order, then the private
rebuild. -/
def update_model_dyn (o : LinAlgOracle) (x_train : PMat) (y_train : PVec)
    (x_sparse : PMat) (s : DynState) : Except String Unit × DynState :=
  if x_train.rows = s.descriptor_dim then
    bindE (catCols s.sparse_descriptors x_sparse) s fun sp =>
    let s1 : DynState := { s with sparse_descriptors := sp }
    bindE (catCols s1.full_descriptors x_train) s1 fun fd =>
    let s2 : DynState := { s1 with full_descriptors := fd }
    let s3 : DynState := { s2 with training_outputs := catVecP s2.training_outputs y_train }
    update_Sigma_alpha_dyn o s3
  else
    (Except.error "x_train dimensions are incompatible with the descriptor dimensions", s)

/-- Statement-by-statement transcription of `update_full_set`, including the
first `alpha` assignment of line 198 and the recomputation of lines
200-202. -/
def update_full_set_dyn (o : LinAlgOracle) (x_train : PMat) (y_train : PVec)
    (s : DynState) : Except String Unit × DynState :=
  bindE (catCols s.full_descriptors x_train) s fun fd =>
  let s1 : DynState := { s with full_descriptors := fd }
  let s2 : DynState := { s1 with training_outputs := catVecP s1.training_outputs y_train }
  let Lambda_inv := constDiagP ((s2.model_noise ^ 2)⁻¹) s2.full_descriptors.cols
  let s3 : DynState := { s2 with Lambda_inv := some Lambda_inv }
  bindE (pkernelP s3.sparse_descriptors x_train s3.kernel_noise s3.kernel_length) s3
    fun Ksfprime =>
  getCache s3.Ksf s3 fun Ksf0 =>
  bindE (catCols Ksf0 Ksfprime) s3 fun Ksf =>
  let s4 : DynState := { s3 with Ksf := some Ksf }
  let Lambda_prime := constDiagP (s4.model_noise ^ 2) x_train.cols
  getCache s4.Sigma s4 fun Sigma0 =>
  bindE (pmul (transposeP Ksfprime) Sigma0) s4 fun KpS =>
  bindE (pmul KpS Ksfprime) s4 fun KpSKp =>
  bindE (padd Lambda_prime KpSKp) s4 fun to_invert =>
  bindE (o.chol to_invert) s4 fun L_to_invert =>
  let L_inv := o.inv L_to_invert
  bindE (pmul L_inv (transposeP Ksfprime)) s4 fun LK =>
  bindE (pmul LK Sigma0) s4 fun aux =>
  bindE (pmul (transposeP aux) aux) s4 fun auxTaux =>
  bindE (psub Sigma0 auxTaux) s4 fun Sigma =>
  let s5 : DynState := { s4 with Sigma := some Sigma }
  bindE (pmul Sigma Ksf) s5 fun SK =>
  bindE (pmul SK Lambda_inv) s5 fun SKL =>
  bindE (pmulVec SKL s5.training_outputs) s5 fun aOnce =>
  let s6 : DynState := { s5 with alpha := some aOnce }
  bindE (pmulVec Lambda_inv s6.training_outputs) s6 fun a1 =>
  let s7 : DynState := { s6 with alpha := some a1 }
  bindE (pmulVec Ksf a1) s7 fun a2 =>
  let s8 : DynState := { s7 with alpha := some a2 }
  bindE (pmulVec Sigma a2) s8 fun a3 =>
  (Except.ok (), { s8 with alpha := some a3 })

/-- Statement-by-statement transcription of `update_sparse_set`.  Note the
local binding `U_Sigma` near the end: the source never assigns
`self.U_Sigma` in this method, so the cached field keeps the stale factor of
the old inducing set. -/
def update_sparse_set_dyn (o : LinAlgOracle) (x_sparse : PMat)
    (s : DynState) : Except String Unit × DynState :=
  bindE (pkernelP s.sparse_descriptors x_sparse s.kernel_noise s.kernel_length) s
    fun Kssprime =>
  bindE (catCols s.sparse_descriptors x_sparse) s fun sp =>
  let s1 : DynState := { s with sparse_descriptors := sp }
  bindE (pkernelP x_sparse x_sparse s1.kernel_noise s1.kernel_length) s1
    fun Ksprimesprime =>
  bindE (pkernelP s1.full_descriptors x_sparse s1.kernel_noise s1.kernel_length) s1
    fun Kfsprime =>
  getCache s1.Kss s1 fun Lss0 =>
  bindE (pmul (o.inv Lss0) Kssprime) s1 fun Lss_inv_Kssp =>
  bindE (pmul (transposeP Lss_inv_Kssp) Lss_inv_Kssp) s1 fun KK =>
  bindE (psub Ksprimesprime KK) s1 fun Schur0 =>
  bindE (padd Schur0 (smulP 1e-8 (eyeP Ksprimesprime.rows))) s1 fun Schur =>
  bindE (o.chol Schur) s1 fun Lsp =>
  bindE (catCols Lss0 (zerosP Kssprime.rows Kssprime.cols)) s1 fun newLss_upper =>
  bindE (catCols (transposeP Lss_inv_Kssp) Lsp) s1 fun newLss_lower =>
  bindE (catRows newLss_upper newLss_lower) s1 fun newLss =>
  let s2 : DynState := { s1 with Kss := some newLss }
  let Lss_inv := o.inv newLss
  getCache s2.Ksf s2 fun Ksf0 =>
  bindE (catRows Ksf0 (transposeP Kfsprime)) s2 fun Ksf =>
  let s3 : DynState := { s2 with Ksf := some Ksf }
  getCache s3.Lambda_inv s3 fun Lambda_inv =>
  bindE (pmul (transposeP Ksf) (transposeP Lss_inv)) s3 fun V =>
  bindE (pmul (sqrtDiagP Lambda_inv) V) s3 fun LsV =>
  bindE (pmul (transposeP LsV) LsV) s3 fun G0 =>
  bindE (padd (eyeP V.cols) G0) s3 fun Gamma =>
  bindE (o.chol Gamma) s3 fun L_Gamma =>
  bindE (pmul (o.inv L_Gamma) Lss_inv) s3 fun UT =>
  let U_Sigma := transposeP UT
  bindE (pmul U_Sigma (transposeP U_Sigma)) s3 fun Sigma =>
  let s4 : DynState := { s3 with Sigma := some Sigma }
  bindE (pmulVec Lambda_inv s4.training_outputs) s4 fun a1 =>
  let s5 : DynState := { s4 with alpha := some a1 }
  bindE (pmulVec Ksf a1) s5 fun a2 =>
  let s6 : DynState := { s5 with alpha := some a2 }
  bindE (pmulVec Sigma a2) s6 fun a3 =>
  (Except.ok (), { s6 with alpha := some a3 })

/-- A concrete shape-correct oracle for evaluating traces: Cholesky and
triangular inverse return their argument, QR returns a square zero `R` of
the right size. -/
def trivOracle : LinAlgOracle where
  chol := fun A => Except.ok A
  qr := fun A => (A, ⟨A.cols, A.cols, fun _ _ => 0⟩)
  inv := fun A => A
  chol_rows := fun A B h => by cases h; rfl
  chol_cols := fun A B h => by cases h; rfl
  qr_r_rows := fun _ => rfl
  qr_r_cols := fun _ => rfl
  inv_rows := fun _ => rfl
  inv_cols := fun _ => rfl

/-- A one-by-one packed matrix with the given entry. -/
def pm1 (a : ℝ) : PMat := ⟨1, 1, fun _ _ => a⟩

/-- A constant packed vector of the given length. -/
def pvConst (n : ℕ) (a : ℝ) : PVec := ⟨n, fun _ => a⟩

/-- A two-row, one-column packed matrix (used as a wrong-dimensionality
input against one-dimensional models). -/
def pm2 : PMat := ⟨2, 1, fun _ _ => 0⟩

/-- A freshly constructed one-dimensional model in the default QR mode. -/
def sgpInit1 : DynState := sgp_init 1 InvertMode.QR

/-- The state after one successful, well-shaped `update_model` call on the
fresh model: one training point, one output, one inducing point. -/
def sAfterFirst : DynState :=
  (update_model_dyn trivOracle (pm1 0) (pvConst 1 0) (pm1 0) sgpInit1).2

/-- A degenerate but well-formed typed state used by the witnesses: a
1-dimensional model with empty full and inducing sets and unit
hyperparameters. -/
def wit0 : GPState 1 (Fin 0) (Fin 0) where
  full_descriptors := 0
  sparse_descriptors := 0
  training_outputs := 0
  kernel_noise := 1
  kernel_length := 1
  model_noise := 1
  Ksf := 0
  Lambda_inv := 0
  Lss := 0
  U_Sigma := 0
  Sigma := 0
  alpha := 0

/-- A companion state over a grown (still empty) inducing index type, used
by the witness of the inducing-set growth theorem. -/
def wit0s : GPState 1 (Fin 0) (Fin 0 ⊕ Fin 0) where
  full_descriptors := 0
  sparse_descriptors := 0
  training_outputs := 0
  kernel_noise := 1
  kernel_length := 1
  model_noise := 1
  Ksf := 0
  Lambda_inv := 0
  Lss := 0
  U_Sigma := 0
  Sigma := 0
  alpha := 0

end

/-!
Helper lemmas shared by several claims.
-/

section MatrixHelpers

variable {m n : Type} [Fintype m] [Fintype n]

theorem transpose_mul_self_posSemidef (A : Matrix m n ℝ) : (Aᵀ * A).PosSemidef := by
  have h := Matrix.posSemidef_conjTranspose_mul_self A
  rwa [Matrix.conjTranspose_eq_transpose_of_trivial] at h

theorem posSemidef_conj_by {M : Matrix n n ℝ} (hM : M.PosSemidef) (B : Matrix n m ℝ) :
    (Bᵀ * M * B).PosSemidef := by
  have h := hM.conjTranspose_mul_mul_same B
  rwa [Matrix.conjTranspose_eq_transpose_of_trivial] at h

theorem posSemidef_conj_by' {M : Matrix n n ℝ} (hM : M.PosSemidef) (B : Matrix m n ℝ) :
    (B * M * Bᵀ).PosSemidef := by
  have h := hM.mul_mul_conjTranspose_same B
  rwa [Matrix.conjTranspose_eq_transpose_of_trivial] at h

theorem transpose_mul_self_posDef [DecidableEq n] (R : Matrix n n ℝ) (hR : IsUnit R.det) :
    (Rᵀ * R).PosDef := by
  refine ⟨(transpose_mul_self_posSemidef R).1, fun x hx => ?_⟩
  have hinj : Function.Injective R.mulVec :=
    Matrix.mulVec_injective_iff_isUnit.mpr ((Matrix.isUnit_iff_isUnit_det R).mpr hR)
  have hRx : R *ᵥ x ≠ 0 := by
    have h := hinj.ne hx
    rwa [Matrix.mulVec_zero] at h
  have key : dotProduct (star x) ((Rᵀ * R) *ᵥ x) = dotProduct (R *ᵥ x) (R *ᵥ x) := by
    rw [star_trivial, ← Matrix.mulVec_mulVec, Matrix.dotProduct_mulVec, Matrix.vecMul_transpose]
  rw [key]
  have hnn : (0 : ℝ) ≤ dotProduct (R *ᵥ x) (R *ᵥ x) :=
    show (0 : ℝ) ≤ ∑ i, (R *ᵥ x) i * (R *ᵥ x) i from
      Finset.sum_nonneg fun i _ => mul_self_nonneg _
  refine lt_of_le_of_ne hnn fun h => hRx ?_
  exact Matrix.dotProduct_self_eq_zero.mp h.symm

theorem smul_one_posDef [DecidableEq n] {c : ℝ} (hc : 0 < c) :
    ((c • 1 : Matrix n n ℝ)).PosDef := by
  rw [Matrix.smul_one_eq_diagonal]
  exact Matrix.posDef_diagonal_iff.mpr fun i => hc

theorem smul_one_inv_matrix [DecidableEq n] {c : ℝ} (hc : c ≠ 0) :
    ((c • 1 : Matrix n n ℝ))⁻¹ = c⁻¹ • 1 := by
  apply Matrix.inv_eq_right_inv
  rw [Matrix.smul_mul, Matrix.mul_smul, Matrix.one_mul, smul_smul, mul_inv_cancel₀ hc, one_smul]

theorem sqrtDiag_smul_one [DecidableEq n] {c : ℝ} :
    sqrtDiag (c • 1 : Matrix n n ℝ) = Matrix.diagonal fun _ => Real.sqrt c := by
  ext i j
  rcases eq_or_ne i j with h | h
  · subst h
    simp [sqrtDiag, Matrix.smul_apply, Matrix.one_apply_eq]
  · simp [sqrtDiag, Matrix.diagonal_apply_ne _ h]

theorem sqrtDiag_transpose_mul_self [DecidableEq n] {c : ℝ} (hc : 0 ≤ c) :
    (sqrtDiag (c • 1 : Matrix n n ℝ))ᵀ * sqrtDiag (c • 1 : Matrix n n ℝ) = c • 1 := by
  rw [sqrtDiag_smul_one, Matrix.diagonal_transpose, Matrix.diagonal_mul_diagonal]
  ext i j
  rcases eq_or_ne i j with h | h
  · subst h
    simp [Matrix.diagonal_apply_eq, Matrix.smul_apply, Matrix.one_apply_eq,
      Real.mul_self_sqrt hc]
  · simp [Matrix.diagonal_apply_ne _ h, Matrix.smul_apply, Matrix.one_apply_ne h]

theorem kernel_fromColumns {d : ℕ} {m n₁ n₂ : Type} (x1 : Matrix (Fin d) m ℝ)
    (a : Matrix (Fin d) n₁ ℝ) (b : Matrix (Fin d) n₂ ℝ) (noise l : ℝ) :
    kernel x1 (Matrix.fromColumns a b) noise l
      = Matrix.fromColumns (kernel x1 a noise l) (kernel x1 b noise l) := by
  ext i j
  cases j with
  | inl j => rfl
  | inr j => rfl

end MatrixHelpers

section GoodStateLemmas

variable {d : ℕ} {F S : Type} [Fintype F] [DecidableEq F] [Fintype S] [DecidableEq S]

/-- A successful QR-path full rebuild establishes the consistency invariant
(provided the observation noise is at least the clamp floor, so that the
clamped noise used by the rebuild equals the raw noise). -/
theorem rebuild_goodstate {s t : GPState d F S} (hup : UpdateSigmaAlphaQR s t)
    (hn : (1e-8 : ℝ) ≤ s.model_noise) : GoodState t := by
  obtain ⟨Lss, Q, R, hfull, hsp, hy, hkn, hkl, hmn, hKsf, hLam, ⟨hcholL, hLu⟩, hLss,
    hBQR, hQ, hRu, hU, hSig, hal⟩ := hup
  have hclamp : clampMin s.model_noise 1e-8 = s.model_noise := max_eq_left hn
  have hc0 : (0 : ℝ) ≤ (s.model_noise ^ 2)⁻¹ := by positivity
  have hLam' : t.Lambda_inv = ((s.model_noise ^ 2)⁻¹) • 1 := by
    rw [hLam, hclamp]
  have hA : Rᵀ * R = Amat t := by
    have h1 : Rᵀ * R = (Q * R)ᵀ * (Q * R) := by
      rw [Matrix.transpose_mul, Matrix.mul_assoc, ← Matrix.mul_assoc Qᵀ Q R, hQ,
        Matrix.one_mul]
    rw [h1, ← hBQR, Matrix.transpose_fromRows, Matrix.fromColumns_mul_fromRows]
    simp only [Matrix.transpose_mul, Matrix.transpose_transpose]
    have hmid : t.Ksf * (sqrtDiag t.Lambda_inv)ᵀ * (sqrtDiag t.Lambda_inv * t.Ksfᵀ)
        = t.Ksf * t.Lambda_inv * t.Ksfᵀ := by
      rw [Matrix.mul_assoc t.Ksf (sqrtDiag t.Lambda_inv)ᵀ,
        ← Matrix.mul_assoc (sqrtDiag t.Lambda_inv)ᵀ (sqrtDiag t.Lambda_inv) t.Ksfᵀ,
        hLam', sqrtDiag_transpose_mul_self hc0, ← Matrix.mul_assoc]
    rw [hmid]
    unfold Amat
    rw [hsp, hfull, hkn, hkl, hKsf, hcholL]
    exact add_comm _ _
  have hPD : (Amat t).PosDef := hA ▸ transpose_mul_self_posDef R hRu
  have hSigEq : t.Sigma = (Amat t)⁻¹ := by
    rw [hSig, hU, ← hA, Matrix.mul_inv_rev, Matrix.transpose_nonsing_inv]
  refine ⟨?_, ?_, ?_, ?_, hPD, hSigEq, ?_⟩
  · rw [hmn]; exact hn
  · rw [hLss, hsp, hkn, hkl]; exact hcholL
  · rw [hKsf, hsp, hfull, hkn, hkl]
  · rw [hLam', hmn]
  · rw [hal, hy]

end GoodStateLemmas

section StepGood

variable {d : ℕ} {F S : Type} [Fintype F] [DecidableEq F] [Fintype S] [DecidableEq S]

set_option maxHeartbeats 1000000 in
/-- The incremental full-set growth preserves the consistency invariant: this
is the Woodbury-identity argument showing that the rank-`k` downdate of
`Sigma` produces exactly the inverse of the grown matrix `Amat`. -/
theorem step_goodstate {k : ℕ} {s : GPState d F S} {x_train : Matrix (Fin d) (Fin k) ℝ}
    {y_train : Fin k → ℝ} {t : GPState d (F ⊕ Fin k) S} (hg : GoodState s)
    (hup : UpdateFullSet s x_train y_train t) : GoodState t := by
  simp only [UpdateFullSet] at hup
  obtain ⟨L, hfull, hy, hLam, hKsf, ⟨hcholL, hLu⟩, hSig, hal, hsp, hkn, hkl, hmn,
    hLss, hUS⟩ := hup
  set Kp := kernel s.sparse_descriptors x_train s.kernel_noise s.kernel_length with hKp
  have hσ : (0 : ℝ) < s.model_noise := lt_of_lt_of_le (by norm_num) hg.noise_ge
  have hσ2 : (0 : ℝ) < s.model_noise ^ 2 := by positivity
  have hc : (0 : ℝ) < (s.model_noise ^ 2)⁻¹ := by positivity
  have hAunit : IsUnit (Amat s) := hg.posdef.isUnit
  have hAinvPD : (Amat s)⁻¹.PosDef := hg.posdef.inv
  have hSsymm : s.Sigmaᵀ = s.Sigma := by
    have hH : (Amat s)ᴴ = Amat s := hg.posdef.isHermitian
    rw [Matrix.conjTranspose_eq_transpose_of_trivial] at hH
    rw [hg.sigma_eq, Matrix.transpose_nonsing_inv, hH]
  have hTIpd : ((s.model_noise ^ 2) • (1 : Matrix (Fin k) (Fin k) ℝ)
      + Kpᵀ * s.Sigma * Kp).PosDef := by
    refine (smul_one_posDef hσ2).add_posSemidef ?_
    rw [hg.sigma_eq]
    exact posSemidef_conj_by hAinvPD.posSemidef Kp
  have hCunit : IsUnit (((s.model_noise ^ 2)⁻¹ • 1 : Matrix (Fin k) (Fin k) ℝ)) := by
    apply (Matrix.isUnit_iff_isUnit_det _).mpr
    rw [Matrix.det_smul, Matrix.det_one, mul_one]
    exact IsUnit.pow _ (Ne.isUnit (ne_of_gt hc))
  have hCinv : (((s.model_noise ^ 2)⁻¹ • 1 : Matrix (Fin k) (Fin k) ℝ))⁻¹
      = (s.model_noise ^ 2) • 1 := by
    rw [smul_one_inv_matrix (ne_of_gt hc), inv_inv]
  have hACunit : IsUnit ((((s.model_noise ^ 2)⁻¹ • 1 : Matrix (Fin k) (Fin k) ℝ))⁻¹
      + Kpᵀ * (Amat s)⁻¹ * Kp) := by
    rw [hCinv, ← hg.sigma_eq]
    exact hTIpd.isUnit
  have hAt : Amat t
      = Amat s + Kp * (((s.model_noise ^ 2)⁻¹ • 1 : Matrix (Fin k) (Fin k) ℝ)) * Kpᵀ := by
    unfold Amat
    rw [hsp, hfull, hkn, hkl, hLam, hg.lambda_eq, kernel_fromColumns,
      Matrix.transpose_fromColumns, ← hKp]
    simp only [Matrix.mul_smul, Matrix.mul_one, Matrix.smul_mul,
      Matrix.fromColumns_mul_fromRows, smul_add]
    abel
  have hPDt : (Amat t).PosDef := by
    rw [hAt]
    exact hg.posdef.add_posSemidef (posSemidef_conj_by' (smul_one_posDef hc).posSemidef Kp)
  have hLL : (L⁻¹)ᵀ * L⁻¹ = ((s.model_noise ^ 2) • (1 : Matrix (Fin k) (Fin k) ℝ)
      + Kpᵀ * s.Sigma * Kp)⁻¹ := by
    rw [← hcholL, Matrix.mul_inv_rev, Matrix.transpose_nonsing_inv]
  have hwood := Matrix.add_mul_mul_inv_eq_sub (Amat s) Kp
    (((s.model_noise ^ 2)⁻¹ • 1 : Matrix (Fin k) (Fin k) ℝ)) Kpᵀ hAunit hCunit hACunit
  have hSigEq : t.Sigma = (Amat t)⁻¹ := by
    rw [hAt, hwood, hCinv, ← hg.sigma_eq, hSig]
    simp only [Matrix.transpose_mul, Matrix.transpose_transpose, hSsymm]
    simp only [Matrix.mul_assoc]
    rw [← Matrix.mul_assoc (L⁻¹)ᵀ L⁻¹, hLL, Matrix.mul_assoc Kpᵀ s.Sigma Kp]
  refine ⟨?_, ?_, ?_, ?_, hPDt, hSigEq, ?_⟩
  · rw [hmn]; exact hg.noise_ge
  · rw [hLss, hsp, hkn, hkl]; exact hg.lss_eq
  · rw [hKsf, hg.ksf_eq, hsp, hfull, hkn, hkl, kernel_fromColumns]
  · rw [hLam, hmn]
  · exact hal

end StepGood

section ChainAndC1

variable {d : ℕ} {S : Type} [Fintype S] [DecidableEq S]

/-- Every state reachable by successive `update_full_set` calls from a
consistent state is consistent. -/
theorem reachable_goodstate {F G : Type} [Fintype F] [DecidableEq F] [Fintype G]
    [DecidableEq G] {s : GPState d F S} {u : GPState d G S}
    (hchain : ReachableUFS s u) : GoodState s → GoodState u := by
  induction hchain with
  | refl s => exact id
  | step hup _ ih => exact fun h0 => ih (step_goodstate h0 hup)

/-- C1: for every model state with a fixed inducing set (any consistent
state, i.e. one satisfying the invariant a successful rebuild establishes)
and every sequence of `(x_train, y_train)` batches, appending the batches by
successive `update_full_set` calls yields the same `alpha` and `Sigma` as a
single full rebuild (`__update_Sigma_alpha`, the path `update_model` runs)
performed on the final full set, inducing set, and hyperparameters.  In the
exact-real embedding the two agree exactly, which is the idealization of the
spec's `1e-6` relative tolerance. -/
theorem C1_update_full_set_matches_full_rebuild {F G : Type} [Fintype F] [DecidableEq F]
    [Fintype G] [DecidableEq G] {s0 : GPState d F S} {s t : GPState d G S}
    (h0 : GoodState s0) (hchain : ReachableUFS s0 s)
    (hrebuild : UpdateSigmaAlphaQR s t) :
    t.Sigma = s.Sigma ∧ t.alpha = s.alpha := by
  have hgs : GoodState s := reachable_goodstate hchain h0
  have hgt : GoodState t := rebuild_goodstate hrebuild hgs.noise_ge
  obtain ⟨Lss, Q, R, hfull, hsp, hy, hkn, hkl, hmn, _⟩ := hrebuild
  have hAeq : Amat t = Amat s := by
    unfold Amat
    rw [hsp, hfull, hkn, hkl, hgt.lambda_eq, hmn, ← hgs.lambda_eq]
  have hSigma : t.Sigma = s.Sigma := by
    rw [hgt.sigma_eq, hAeq, ← hgs.sigma_eq]
  refine ⟨hSigma, ?_⟩
  have hKsfEq : t.Ksf = s.Ksf := by
    rw [hgt.ksf_eq, hgs.ksf_eq, hsp, hfull, hkn, hkl]
  have hLamEq : t.Lambda_inv = s.Lambda_inv := by
    rw [hgt.lambda_eq, hgs.lambda_eq, hmn]
  rw [hgt.alpha_eq, hgs.alpha_eq, hSigma, hKsfEq, hLamEq, hy]

end ChainAndC1

/-- The degenerate rebuild on the empty witness state. -/
theorem wit0_rebuild : UpdateSigmaAlphaQR wit0 wit0 := by
  have hdet : IsUnit ((0 : Matrix (Fin 0) (Fin 0) ℝ)).det := by
    rw [Matrix.det_isEmpty]
    exact isUnit_one
  exact ⟨0, 0, 0, rfl, rfl, rfl, rfl, rfl, rfl, Subsingleton.elim _ _,
    Subsingleton.elim _ _, ⟨Subsingleton.elim _ _, hdet⟩, Subsingleton.elim _ _,
    Subsingleton.elim _ _, Subsingleton.elim _ _, hdet, Subsingleton.elim _ _,
    Subsingleton.elim _ _, Subsingleton.elim _ _⟩

/-- The empty witness state is consistent. -/
theorem wit0_good : GoodState wit0 := by
  refine ⟨by norm_num [wit0], Subsingleton.elim _ _, Subsingleton.elim _ _,
    Subsingleton.elim _ _, ⟨Subsingleton.elim _ _, ?_⟩, Subsingleton.elim _ _,
    Subsingleton.elim _ _⟩
  intro x hx
  exact absurd (Subsingleton.elim x 0) hx

/-- Witness for C1: the hypotheses of the claim theorem hold at the concrete
empty model state with the empty batch sequence and a concrete rebuild. -/
theorem C1_witness :
    GoodState wit0 ∧ (wit0.Sigma = wit0.Sigma ∧ wit0.alpha = wit0.alpha) :=
  ⟨wit0_good,
    C1_update_full_set_matches_full_rebuild wit0_good (ReachableUFS.refl wit0) wit0_rebuild⟩

/-- C7: after every successful full rebuild (the `__update_Sigma_alpha` path
run by `update_model` and by each optimizer step), the cached prediction
weight vector `alpha` equals `Σ·Ksf·Λ⁻¹·training_outputs` computed from the
cached `Sigma`, `Ksf`, `Lambda_inv` and the current training outputs. -/
theorem C7_alpha_formula {d : ℕ} {F S : Type} [Fintype F] [DecidableEq F] [Fintype S]
    [DecidableEq S] {s t : GPState d F S} (hup : UpdateSigmaAlphaQR s t) :
    t.alpha = (t.Sigma * t.Ksf * t.Lambda_inv) *ᵥ t.training_outputs := by
  obtain ⟨Lss, Q, R, hfull, hsp, hy, hkn, hkl, hmn, hKsf, hLam, hchol, hLss, hBQR, hQ,
    hRu, hU, hSig, hal⟩ := hup
  rw [hal, hy]
  simp only [Matrix.mulVec_mulVec]
  rw [Matrix.mul_assoc]

/-- Witness for C7 at the concrete empty rebuild. -/
theorem C7_witness :
    wit0.alpha = (wit0.Sigma * wit0.Ksf * wit0.Lambda_inv) *ᵥ wit0.training_outputs :=
  C7_alpha_formula wit0_rebuild

/-- C8: the covariance evaluator returns
`amplitude_eff² · exp(−‖a−b‖² / (2·lengthscale²))` entrywise, where the
effective amplitude is the amplitude floored at `1e-8`; and in diagonal mode
the two batches share their column count (the index type `n` below) and the
result is the vector of per-column kernel values. -/
theorem C8_kernel_formula :
    (∀ (d : ℕ) (m n : Type) (x1 : Matrix (Fin d) m ℝ) (x2 : Matrix (Fin d) n ℝ)
        (noise l : ℝ) (i : m) (j : n),
      kernel x1 x2 noise l i j
        = max noise 1e-8 ^ 2
            * Real.exp (-(∑ k, (x1 k i - x2 k j) ^ 2) / (2 * l ^ 2))) ∧
    (∀ (d : ℕ) (n : Type) (x1 x2 : Matrix (Fin d) n ℝ) (noise l : ℝ) (j : n),
      kernelDiag x1 x2 noise l j = kernel x1 x2 noise l j j) := by
  constructor
  · intro d m n x1 x2 noise l i j
    have harg : (-0.5 * (∑ k, (x1 k i - x2 k j) ^ 2) / (l * l) : ℝ)
        = -(∑ k, (x1 k i - x2 k j) ^ 2) / (2 * l ^ 2) := by
      ring
    show max noise 1e-8 * max noise 1e-8
        * Real.exp (-0.5 * (∑ k, (x1 k i - x2 k j) ^ 2) / (l * l)) = _
    rw [harg, ← pow_two]
  · intro d n x1 x2 noise l j
    rfl

/-- C9: `get_predictions` modifies no field of the model state, and two
consecutive calls with identical arguments and no intervening mutation
return identical results.  In the embedding the method body contains no
`self` assignment, so the call is the pure function `get_predictions`
paired with the unchanged state. -/
theorem C9_predictions_idempotent_pure {d : ℕ} {F S T : Type} [Fintype F] [DecidableEq F]
    [Fintype S] [DecidableEq S] [Fintype T] (s : GPState d F S)
    (x_test : Matrix (Fin d) T ℝ) (mean_var : Bool × Bool) (mode : PredMode) :
    (get_predictions_call s x_test mean_var mode).1 = s ∧
    (get_predictions_call ((get_predictions_call s x_test mean_var mode).1)
        x_test mean_var mode).2
      = (get_predictions_call s x_test mean_var mode).2 :=
  ⟨rfl, rfl⟩

/-- C6: with mean and variance both requested in mode `'dtc'`,
`get_predictions` returns the mean `Kstᵀ·α` and the variance
`|prior_diagonal − ‖Lss⁻¹·Kst‖²_columns + diag(Kstᵀ·Σ·Kst)|`, where
`prior_diagonal` is the kernel's diagonal self-covariance at the query
points and the absolute value is applied to the final result. -/
theorem C6_predictions_dtc_formula {d : ℕ} {F S T : Type} [Fintype F] [DecidableEq F]
    [Fintype S] [DecidableEq S] [Fintype T] (s : GPState d F S)
    (x_test : Matrix (Fin d) T ℝ) :
    get_predictions s x_test (true, true) PredMode.dtc
      = [(kernel s.sparse_descriptors x_test s.kernel_noise s.kernel_length)ᵀ *ᵥ s.alpha,
         fun u =>
           |kernelDiag x_test x_test s.kernel_noise s.kernel_length u
              - (∑ i, ((s.Lss⁻¹
                  * kernel s.sparse_descriptors x_test s.kernel_noise s.kernel_length) i u) ^ 2)
              + ((kernel s.sparse_descriptors x_test s.kernel_noise s.kernel_length)ᵀ
                  * s.Sigma
                  * kernel s.sparse_descriptors x_test s.kernel_noise s.kernel_length) u u|] :=
  rfl

/-- C5: `get_likelihood` returns
`−½·outputsᵀ·Λ⁻¹·(outputs − Ksfᵀ·α) − ½·logdet(Ξ⁻¹) − (n/2)·log(2π)` with
`logdet(Ξ⁻¹) = −logdet(Kss) − logdet(Λ⁻¹) − 2·logdet(U_Σ)` and `n` the full
training-set size.  The implementation computes each log-determinant from
the diagonal of the stored factor, so the theorem assumes what a
well-formed state provides: the stored `Lss` is lower triangular with
positive diagonal (`Kss = Lss·Lssᵀ`), `U_Σ` is upper triangular with
positive diagonal, and `Λ⁻¹` is diagonal with positive entries. -/
theorem C5_likelihood_formula {d : ℕ} {F S : Type} [Fintype F] [DecidableEq F]
    [Fintype S] [DecidableEq S] [LinearOrder S] (s : GPState d F S) (v : F → ℝ)
    (hLtri : LowerTri (· < ·) s.Lss) (hLdiag : ∀ i, 0 < s.Lss i i)
    (hUtri : UpperTri (· < ·) s.U_Sigma) (hUdiag : ∀ i, 0 < s.U_Sigma i i)
    (hLam : s.Lambda_inv = Matrix.diagonal v) (hv : ∀ i, 0 < v i) :
    get_likelihood s
      = -0.5 * (s.training_outputs ⬝ᵥ (s.Lambda_inv *ᵥ
            (s.training_outputs - s.Ksfᵀ *ᵥ s.alpha)))
        - 0.5 * (-(Real.log ((s.Lss * s.Lssᵀ).det)) - Real.log (s.Lambda_inv.det)
            - 2 * Real.log (s.U_Sigma.det))
        - (Fintype.card F : ℝ) / 2 * Real.log (2 * Real.pi) := by
  have hLssBT : s.Lss.BlockTriangular OrderDual.toDual := by
    intro i j hij
    exact hLtri i j (OrderDual.toDual_lt_toDual.mp hij)
  have hdetL : s.Lss.det = ∏ i, s.Lss i i := Matrix.det_of_lowerTriangular s.Lss hLssBT
  have hdetLpos : 0 < s.Lss.det := hdetL ▸ Finset.prod_pos fun i _ => hLdiag i
  have hlogL : Real.log ((s.Lss * s.Lssᵀ).det) = 2 * ∑ i, Real.log (s.Lss i i) := by
    rw [Matrix.det_mul, Matrix.det_transpose,
      Real.log_mul (ne_of_gt hdetLpos) (ne_of_gt hdetLpos), two_mul]
    rw [hdetL, Real.log_prod _ _ fun i _ => ne_of_gt (hLdiag i)]
  have hUBT : s.U_Sigma.BlockTriangular id := fun i j hij => hUtri i j hij
  have hdetU : s.U_Sigma.det = ∏ i, s.U_Sigma i i := Matrix.det_of_upperTriangular hUBT
  have hlogU : Real.log s.U_Sigma.det = ∑ i, Real.log (s.U_Sigma i i) := by
    rw [hdetU, Real.log_prod _ _ fun i _ => ne_of_gt (hUdiag i)]
  have hlogLam : Real.log s.Lambda_inv.det = ∑ i, Real.log (s.Lambda_inv i i) := by
    rw [hLam, Matrix.det_diagonal, Real.log_prod _ _ fun i _ => ne_of_gt (hv i)]
    refine Finset.sum_congr rfl fun i _ => ?_
    rw [Matrix.diagonal_apply_eq]
  unfold get_likelihood
  rw [hlogL, hlogLam, hlogU, Matrix.dotProduct_mulVec]
  ring

/-- Witness for C5 at the concrete empty model state, where all the
triangularity and positivity hypotheses hold vacuously. -/
theorem C5_witness :
    get_likelihood wit0
      = -0.5 * (wit0.training_outputs ⬝ᵥ (wit0.Lambda_inv *ᵥ
            (wit0.training_outputs - wit0.Ksfᵀ *ᵥ wit0.alpha)))
        - 0.5 * (-(Real.log ((wit0.Lss * wit0.Lssᵀ).det)) - Real.log wit0.Lambda_inv.det
            - 2 * Real.log wit0.U_Sigma.det)
        - (Fintype.card (Fin 0) : ℝ) / 2 * Real.log (2 * Real.pi) :=
  C5_likelihood_formula wit0 0 (fun i => i.elim0) (fun i => i.elim0) (fun i => i.elim0)
    (fun i => i.elim0) (Subsingleton.elim _ _) (fun i => i.elim0)

open scoped Classical in
/-- Unfolding equation for one iteration of the optimizer loop. -/
theorem optimize_loop_succ (lik : ℕ → ℝ) (rtol : ℝ) (fuel counter : ℕ) (dl : ℝ≥0∞)
    (prev : ℝ) :
    optimize_loop lik rtol (fuel + 1) counter dl prev
      = if ENNReal.ofReal rtol < dl / ENNReal.ofReal |prev| then
          optimize_loop lik rtol fuel (counter + 1)
            (ENNReal.ofReal |prev - lik (counter + 1)|) (lik (counter + 1))
        else some counter := rfl

/-- The loop counter never decreases: a terminating run started at `counter`
returns at least `counter`. -/
theorem optimize_loop_counter_le (lik : ℕ → ℝ) (rtol : ℝ) :
    ∀ (fuel counter : ℕ) (dl : ℝ≥0∞) (prev : ℝ) (c : ℕ),
      optimize_loop lik rtol fuel counter dl prev = some c → counter ≤ c := by
  intro fuel
  induction fuel with
  | zero =>
    intro counter dl prev c h
    exact absurd h (by simp [optimize_loop])
  | succ n ih =>
    intro counter dl prev c h
    rw [optimize_loop_succ] at h
    by_cases hguard : ENNReal.ofReal rtol < dl / ENNReal.ofReal |prev|
    · rw [if_pos hguard] at h
      exact le_trans (Nat.le_succ counter) (ih (counter + 1) _ _ c h)
    · rw [if_neg hguard] at h
      exact le_of_eq (Option.some_injective ℕ h)

/-- C10: for every likelihood trajectory and every `rtol`, the optimizer
performs at least one step before the convergence test can stop the loop:
the sentinel `dlikelihood = np.inf` makes the first test
`np.abs(inf / prev) > rtol` true for every real `rtol`, so whenever
`optimize_hyperparameters` returns, the returned iteration count is at
least `1` — even when the likelihood is already converged at entry. -/
theorem C10_optimizer_at_least_one_step (lik : ℕ → ℝ) (rtol : ℝ) (fuel : ℕ) (c : ℕ)
    (h : optimize_hyperparameters lik rtol fuel = some c) : 1 ≤ c := by
  unfold optimize_hyperparameters at h
  cases fuel with
  | zero => exact absurd h (by simp [optimize_loop])
  | succ n =>
    rw [optimize_loop_succ] at h
    have hguard : ENNReal.ofReal rtol < (⊤ : ℝ≥0∞) / ENNReal.ofReal |lik 0| := by
      rw [ENNReal.top_div_of_ne_top ENNReal.ofReal_ne_top]
      exact ENNReal.ofReal_lt_top
    rw [if_pos hguard] at h
    exact optimize_loop_counter_le lik rtol n 1 _ _ c h

/-- Witness for C10: a concrete constant likelihood trajectory that is
already converged at entry still produces iteration count `1`. -/
theorem C10_witness : optimize_hyperparameters (fun _ => 1) 1 2 = some 1 ∧ 1 ≤ 1 := by
  have hg1 : ENNReal.ofReal (1 : ℝ) < (⊤ : ℝ≥0∞) / ENNReal.ofReal |(1 : ℝ)| := by
    rw [ENNReal.top_div_of_ne_top ENNReal.ofReal_ne_top]
    exact ENNReal.ofReal_lt_top
  have hg2 : ¬ (ENNReal.ofReal (1 : ℝ)
      < ENNReal.ofReal |(1 : ℝ) - 1| / ENNReal.ofReal |(1 : ℝ)|) := by
    simp
  have h : optimize_hyperparameters (fun _ => 1) 1 2 = some 1 := by
    simp only [optimize_hyperparameters, optimize_loop_succ, if_pos hg1]
    simp only [optimize_loop_succ, if_neg hg2]
  exact ⟨h, C10_optimizer_at_least_one_step (fun _ => 1) 1 2 1 h⟩

section TriangularHelpers

/-- A product of lower-triangular matrices is lower triangular, for any
strict relation with the interval property below (satisfied by every strict
linear order). -/
theorem lowerTri_mul {n : Type} [Fintype n] {lt : n → n → Prop}
    (htot : ∀ i j k, lt i j → lt i k ∨ lt k j) {A B : Matrix n n ℝ}
    (hA : LowerTri lt A) (hB : LowerTri lt B) : LowerTri lt (A * B) := by
  intro i j hij
  rw [Matrix.mul_apply]
  refine Finset.sum_eq_zero fun k _ => ?_
  rcases htot i j k hij with h | h
  · rw [hA i k h, zero_mul]
  · rw [hB k j h, mul_zero]

/-- The transpose of a lower-triangular matrix is upper triangular. -/
theorem lowerTri_transpose {n : Type} {lt : n → n → Prop} {A : Matrix n n ℝ}
    (hA : LowerTri lt A) : UpperTri lt Aᵀ :=
  fun i j hji => hA j i hji

/-- The interval property of the block order `sumLt` on `S ⊕ K`. -/
theorem sumLt_total {S K : Type} [LinearOrder S] [LinearOrder K] :
    ∀ i j k : S ⊕ K, sumLt (· < ·) (· < ·) i j →
      sumLt (· < ·) (· < ·) i k ∨ sumLt (· < ·) (· < ·) k j := by
  intro i j k hij
  cases k with
  | inl c =>
    cases i with
    | inl a =>
      cases j with
      | inl b =>
        rcases lt_or_le a c with h | h
        · exact Or.inl h
        · exact Or.inr (lt_of_le_of_lt h hij)
      | inr b => exact Or.inr trivial
    | inr a =>
      cases j with
      | inl b => exact hij.elim
      | inr b => exact Or.inr trivial
  | inr c =>
    cases i with
    | inl a => exact Or.inl trivial
    | inr a =>
      cases j with
      | inl b => exact hij.elim
      | inr b =>
        rcases lt_or_le a c with h | h
        · exact Or.inl h
        · exact Or.inr (lt_of_le_of_lt h hij)

/-- A block matrix with zero upper-right block and lower-triangular diagonal
blocks is lower triangular for `sumLt`. -/
theorem lowerTri_fromBlocks {S K : Type} {ltS : S → S → Prop} {ltK : K → K → Prop}
    {A : Matrix S S ℝ} {C : Matrix K S ℝ} {D : Matrix K K ℝ}
    (hA : LowerTri ltS A) (hD : LowerTri ltK D) :
    LowerTri (sumLt ltS ltK) (Matrix.fromBlocks A 0 C D) := by
  intro i j hij
  cases i with
  | inl a =>
    cases j with
    | inl b => exact hA a b hij
    | inr b => rfl
  | inr a =>
    cases j with
    | inl b => exact hij.elim
    | inr b => exact hD a b hij

end TriangularHelpers

set_option maxHeartbeats 1000000 in
/-- C2 amended: after `update_sparse_set` extends the Cholesky factor of
`Kss` by the block construction, the cached `Sigma` and `alpha` are
recomputed (through the V-method locals) with exactly the values of the
orthogonal-factorization path of the full rebuild over the enlarged inducing
set: there is a QR factorization `B = Q·R` of the stacked matrix
`[Λ⁻¹^½·Ksfᵀ ; Lssᵀ]` with upper-triangular invertible `R` such that
`Sigma = R⁻¹·R⁻ᵀ` (the Gram square of the QR path's `U_Σ = R⁻¹`) and
`alpha = Sigma·Ksf·Λ⁻¹·outputs`.  The original claim fails only in saying
the cached `U_Sigma` is recomputed: the source computes the new factor into
a local variable and leaves `self.U_Sigma` stale (see the counterexample). -/
theorem C2_sparse_growth_qr_equivalence {d : ℕ} {F S : Type} [Fintype F] [DecidableEq F]
    [Fintype S] [DecidableEq S] [LinearOrder S] {k : ℕ} {s : GPState d F S}
    {x_sparse : Matrix (Fin d) (Fin k) ℝ} {t : GPState d F (S ⊕ Fin k)}
    (hLssTri : LowerTri (· < ·) s.Lss) (hLssU : IsUnit s.Lss.det)
    (c : ℝ) (hc : 0 ≤ c) (hLam : s.Lambda_inv = c • 1)
    (hup : UpdateSparseSet s x_sparse t) :
    ∃ (Q : Matrix (F ⊕ (S ⊕ Fin k)) (S ⊕ Fin k) ℝ)
      (R : Matrix (S ⊕ Fin k) (S ⊕ Fin k) ℝ),
      Matrix.fromRows (sqrtDiag s.Lambda_inv * t.Ksfᵀ) t.Lssᵀ = Q * R ∧
      Qᵀ * Q = 1 ∧
      UpperTri (sumLt (· < ·) (· < ·)) R ∧
      IsUnit R.det ∧
      t.Sigma = R⁻¹ * (R⁻¹)ᵀ ∧
      t.alpha = t.Sigma *ᵥ (t.Ksf *ᵥ (s.Lambda_inv *ᵥ s.training_outputs)) := by
  simp only [UpdateSparseSet] at hup
  obtain ⟨Lsp, LG, hsp, ⟨hcholLsp, hLspU⟩, hLspTri, hLssEq, hKsf,
    ⟨⟨hcholLG, hLGU⟩, hLGTri, hSig, hal⟩, hfull, hy, hkn, hkl, hmn, hLamEq⟩ := hup
  have hTLU : IsUnit t.Lss.det := by
    rw [hLssEq, Matrix.det_fromBlocks_zero₁₂]
    exact hLssU.mul hLspU
  have hTLTri : LowerTri (sumLt (· < ·) (· < ·)) t.Lss := by
    rw [hLssEq]
    exact lowerTri_fromBlocks hLssTri hLspTri
  set R : Matrix (S ⊕ Fin k) (S ⊕ Fin k) ℝ := (t.Lss * LG)ᵀ with hR
  set B : Matrix (F ⊕ (S ⊕ Fin k)) (S ⊕ Fin k) ℝ :=
    Matrix.fromRows (sqrtDiag s.Lambda_inv * t.Ksfᵀ) t.Lssᵀ with hB
  have hRdet : IsUnit R.det := by
    rw [hR, Matrix.det_transpose, Matrix.det_mul]
    exact hTLU.mul hLGU
  have hRtri : UpperTri (sumLt (· < ·) (· < ·)) R := by
    rw [hR]
    exact lowerTri_transpose (lowerTri_mul sumLt_total hTLTri hLGTri)
  have hsq : (sqrtDiag s.Lambda_inv)ᵀ * sqrtDiag s.Lambda_inv = c • 1 := by
    rw [hLam, sqrtDiag_transpose_mul_self hc]
  have hTL1' : (t.Lss⁻¹)ᵀ * t.Lssᵀ = 1 := by
    rw [Matrix.transpose_nonsing_inv]
    exact Matrix.nonsing_inv_mul _ (by rw [Matrix.det_transpose]; exact hTLU)
  have hRR : Rᵀ * R = t.Lss * t.Lssᵀ + c • (t.Ksf * t.Ksfᵀ) := by
    rw [hR, Matrix.transpose_transpose, Matrix.transpose_mul,
      Matrix.mul_assoc t.Lss LG (LGᵀ * t.Lssᵀ), ← Matrix.mul_assoc LG LGᵀ t.Lssᵀ,
      hcholLG, Matrix.add_mul, Matrix.one_mul, Matrix.mul_add]
    congr 1
    -- t.Lss * ((X'ᵀ * X') * t.Lssᵀ) = c • (t.Ksf * t.Ksfᵀ)
    -- where X' = sqrtΛ * (t.Ksfᵀ * (t.Lss⁻¹)ᵀ)
    simp only [Matrix.transpose_mul, Matrix.transpose_transpose, Matrix.mul_assoc]
    -- t.Lss * (t.Lss⁻¹ * (t.Ksf * (sqrtΛᵀ * (sqrtΛ * (t.Ksfᵀ * ((t.Lss⁻¹)ᵀ * t.Lssᵀ))))))
    rw [Matrix.mul_nonsing_inv_cancel_left _ _ hTLU, hTL1', Matrix.mul_one,
      ← Matrix.mul_assoc (sqrtDiag s.Lambda_inv)ᵀ (sqrtDiag s.Lambda_inv) t.Ksfᵀ, hsq,
      Matrix.smul_mul, Matrix.one_mul, Matrix.mul_smul]
  have hBB : Bᵀ * B = Rᵀ * R := by
    rw [hB, Matrix.transpose_fromRows, Matrix.fromColumns_mul_fromRows]
    simp only [Matrix.transpose_mul, Matrix.transpose_transpose]
    rw [Matrix.mul_assoc t.Ksf (sqrtDiag s.Lambda_inv)ᵀ,
      ← Matrix.mul_assoc (sqrtDiag s.Lambda_inv)ᵀ (sqrtDiag s.Lambda_inv) t.Ksfᵀ, hsq,
      Matrix.smul_mul, Matrix.one_mul, Matrix.mul_smul, hRR]
    exact add_comm _ _
  refine ⟨B * R⁻¹, R, ?_, ?_, hRtri, hRdet, ?_, hal⟩
  · rw [Matrix.mul_assoc, Matrix.nonsing_inv_mul _ hRdet, Matrix.mul_one]
  · rw [Matrix.transpose_mul, Matrix.mul_assoc (R⁻¹)ᵀ Bᵀ (B * R⁻¹),
      ← Matrix.mul_assoc Bᵀ B R⁻¹, hBB, Matrix.mul_assoc Rᵀ R R⁻¹,
      Matrix.mul_nonsing_inv _ hRdet, Matrix.mul_one, ← Matrix.transpose_mul,
      Matrix.mul_nonsing_inv _ hRdet, Matrix.transpose_one]
  · have hRinv : R⁻¹ = (LG⁻¹ * t.Lss⁻¹)ᵀ := by
      rw [hR, ← Matrix.transpose_nonsing_inv, Matrix.mul_inv_rev]
    rw [hSig, hRinv]

/-- The degenerate inducing-set growth on the empty witness state. -/
theorem wit0_sparse_update : UpdateSparseSet wit0 (0 : Matrix (Fin 1) (Fin 0) ℝ) wit0s := by
  have hdet0 : IsUnit ((0 : Matrix (Fin 0) (Fin 0) ℝ)).det := by
    rw [Matrix.det_isEmpty]
    exact isUnit_one
  have hdetSum : IsUnit ((0 : Matrix (Fin 0 ⊕ Fin 0) (Fin 0 ⊕ Fin 0) ℝ)).det := by
    rw [Matrix.det_isEmpty]
    exact isUnit_one
  exact ⟨0, 0, Subsingleton.elim _ _, ⟨Subsingleton.elim _ _, hdet0⟩,
    fun i => i.elim0, Subsingleton.elim _ _, Subsingleton.elim _ _,
    ⟨⟨Subsingleton.elim _ _, hdetSum⟩, fun i => isEmptyElim i, Subsingleton.elim _ _,
      Subsingleton.elim _ _⟩, rfl, rfl, rfl, rfl, rfl, rfl⟩

/-- Witness for the amended C2 at the degenerate concrete inducing-set
growth. -/
theorem C2_witness :
    ∃ (Q : Matrix (Fin 0 ⊕ (Fin 0 ⊕ Fin 0)) (Fin 0 ⊕ Fin 0) ℝ)
      (R : Matrix (Fin 0 ⊕ Fin 0) (Fin 0 ⊕ Fin 0) ℝ),
      Matrix.fromRows (sqrtDiag wit0.Lambda_inv * wit0s.Ksfᵀ) wit0s.Lssᵀ = Q * R ∧
      Qᵀ * Q = 1 ∧
      UpperTri (sumLt (· < ·) (· < ·)) R ∧
      IsUnit R.det ∧
      wit0s.Sigma = R⁻¹ * (R⁻¹)ᵀ ∧
      wit0s.alpha = wit0s.Sigma *ᵥ (wit0s.Ksf *ᵥ (wit0.Lambda_inv *ᵥ wit0.training_outputs)) :=
  C2_sparse_growth_qr_equivalence (fun i => i.elim0)
    (by rw [Matrix.det_isEmpty]; exact isUnit_one) 1 (by norm_num)
    (Subsingleton.elim _ _) wit0_sparse_update

/-- Counterexample to C2 as frozen: on a concrete one-point model, a
successful `update_sparse_set` call enlarges the inducing set to two points
and recomputes `Sigma` as a `2 × 2` matrix, but the cached `U_Sigma` field
is left exactly as it was before the call (a `1 × 1` matrix): the source
computes the new factor into a local variable and never assigns
`self.U_Sigma`, so the cached `U_Sigma` is not the recomputed factor
`R⁻¹` over the enlarged inducing set. -/
theorem C2_counterexample :
    (update_sparse_set_dyn trivOracle (pm1 1) sAfterFirst).1 = Except.ok () ∧
    (update_sparse_set_dyn trivOracle (pm1 1) sAfterFirst).2.sparse_descriptors.cols = 2 ∧
    (update_sparse_set_dyn trivOracle (pm1 1) sAfterFirst).2.U_Sigma = sAfterFirst.U_Sigma ∧
    Option.map PMat.rows (update_sparse_set_dyn trivOracle (pm1 1) sAfterFirst).2.U_Sigma
      = some 1 ∧
    Option.map PMat.rows (update_sparse_set_dyn trivOracle (pm1 1) sAfterFirst).2.Sigma
      = some 2 :=
  ⟨rfl, rfl, rfl, rfl, rfl⟩

section DynHelpers

/-- Shape of a successful column concatenation. -/
theorem catCols_cols {A B C : PMat} (h : catCols A B = Except.ok C) :
    C.cols = A.cols + B.cols := by
  unfold catCols at h
  split at h
  · cases h
    rfl
  · exact Except.noConfusion h

/-- The private rebuild never touches the data fields `full_descriptors` and
`training_outputs` (it only assigns cached products), on every branch and on
every failure path. -/
theorem update_Sigma_alpha_dyn_data_const (o : LinAlgOracle) (s : DynState) :
    (update_Sigma_alpha_dyn o s).2.full_descriptors = s.full_descriptors ∧
    (update_Sigma_alpha_dyn o s).2.training_outputs = s.training_outputs := by
  unfold update_Sigma_alpha_dyn bindE
  repeat' (first
    | split
    | (simp only []
       split))
  all_goals exact ⟨rfl, rfl⟩

/-- The inducing-set update never touches `full_descriptors` or
`training_outputs`, on every failure path. -/
theorem update_sparse_set_dyn_data_const (o : LinAlgOracle) (x_sparse : PMat)
    (s : DynState) :
    (update_sparse_set_dyn o x_sparse s).2.full_descriptors = s.full_descriptors ∧
    (update_sparse_set_dyn o x_sparse s).2.training_outputs = s.training_outputs := by
  unfold update_sparse_set_dyn bindE getCache
  repeat' (first
    | split
    | (simp only []
       split))
  all_goals exact ⟨rfl, rfl⟩

end DynHelpers

/-- C3 amended: a descriptor-dimensionality mismatch is rejected before any
field of the model state is modified, in all three mutating calls:
`update_model` asserts the dimensionality of `x_train` first, and
`update_full_set`/`update_sparse_set` fail at their first tensor operation
(the concatenation, respectively the kernel evaluation), before any
assignment.  The original claim fails for output-count mismatches, which no
mutating call checks at the boundary (see the counterexample). -/
theorem C3_dim_mismatch_rejected_before_mutation :
    (∀ (o : LinAlgOracle) (s : DynState) (x_train : PMat) (y_train : PVec)
        (x_sparse : PMat),
      x_train.rows ≠ s.descriptor_dim →
      update_model_dyn o x_train y_train x_sparse s
        = (Except.error "x_train dimensions are incompatible with the descriptor dimensions",
           s)) ∧
    (∀ (o : LinAlgOracle) (s : DynState) (x_train : PMat) (y_train : PVec),
      x_train.rows ≠ s.full_descriptors.rows →
      update_full_set_dyn o x_train y_train s
        = (Except.error "torch.cat dim 1: sizes must match except in dimension 1", s)) ∧
    (∀ (o : LinAlgOracle) (s : DynState) (x_sparse : PMat),
      x_sparse.rows ≠ s.sparse_descriptors.rows →
      update_sparse_set_dyn o x_sparse s
        = (Except.error "vector dimensions of x1 and x2 are incompatible", s)) := by
  refine ⟨?_, ?_, ?_⟩
  · intro o s x y xs h
    unfold update_model_dyn
    rw [if_neg h]
  · intro o s x y h
    unfold update_full_set_dyn
    rw [catCols, dif_neg h]
    rfl
  · intro o s xs h
    unfold update_sparse_set_dyn
    rw [pkernelP, dif_neg (Ne.symm h)]
    rfl

/-- Witness for the amended C3: a two-dimensional training batch offered to
the one-dimensional model is rejected with the state unchanged. -/
theorem C3_witness :
    pm2.rows ≠ sgpInit1.descriptor_dim ∧
    update_model_dyn trivOracle pm2 (pvConst 1 0) (pm1 0) sgpInit1
      = (Except.error "x_train dimensions are incompatible with the descriptor dimensions",
         sgpInit1) :=
  ⟨by decide,
   C3_dim_mismatch_rejected_before_mutation.1 trivOracle sgpInit1 pm2 (pvConst 1 0) (pm1 0)
     (by decide)⟩

/-- Counterexample to C3 as frozen: `update_model` called with one training
column but two outputs is a shape-mismatched call, yet it is not rejected at
the boundary: it fails only when `alpha` is recomputed, at which point
`full_descriptors` has already grown from zero to one column,
`training_outputs` from zero to two entries, and the cached products have
been overwritten. -/
theorem C3_counterexample :
    (update_model_dyn trivOracle (pm1 0) (pvConst 2 0) (pm1 0) sgpInit1).1
      = Except.error "matmul: vector dimension mismatch" ∧
    sgpInit1.full_descriptors.cols = 0 ∧
    sgpInit1.training_outputs.len = 0 ∧
    (update_model_dyn trivOracle (pm1 0) (pvConst 2 0) (pm1 0) sgpInit1).2.full_descriptors.cols
      = 1 ∧
    (update_model_dyn trivOracle (pm1 0) (pvConst 2 0) (pm1 0) sgpInit1).2.training_outputs.len
      = 2 ∧
    (update_model_dyn trivOracle (pm1 0) (pvConst 2 0) (pm1 0) sgpInit1).2.Sigma ≠ none :=
  ⟨rfl, rfl, rfl, rfl, rfl, fun h => Option.noConfusion h⟩

/-- C4 amended: the count invariant `len(training_outputs) =
cols(full_descriptors)` holds at construction and is preserved — whether the
call succeeds or fails, and for every oracle behavior — by `update_model`
and `update_full_set` whenever the batch itself is consistent
(`len(y_train) = cols(x_train)`), and by `update_sparse_set`
unconditionally.  The original claim fails without the batch-consistency
condition: a call whose output count differs from its input count is not
rejected at the boundary and leaves the two counts unequal (see the
counterexample). -/
theorem C4_counts_invariant :
    (∀ (dd : ℕ) (mode : InvertMode),
      (sgp_init dd mode).training_outputs.len = (sgp_init dd mode).full_descriptors.cols) ∧
    (∀ (o : LinAlgOracle) (s : DynState) (x_train : PMat) (y_train : PVec)
        (x_sparse : PMat),
      y_train.len = x_train.cols →
      s.training_outputs.len = s.full_descriptors.cols →
      (update_model_dyn o x_train y_train x_sparse s).2.training_outputs.len
        = (update_model_dyn o x_train y_train x_sparse s).2.full_descriptors.cols) ∧
    (∀ (o : LinAlgOracle) (s : DynState) (x_train : PMat) (y_train : PVec),
      y_train.len = x_train.cols →
      s.training_outputs.len = s.full_descriptors.cols →
      (update_full_set_dyn o x_train y_train s).2.training_outputs.len
        = (update_full_set_dyn o x_train y_train s).2.full_descriptors.cols) ∧
    (∀ (o : LinAlgOracle) (s : DynState) (x_sparse : PMat),
      s.training_outputs.len = s.full_descriptors.cols →
      (update_sparse_set_dyn o x_sparse s).2.training_outputs.len
        = (update_sparse_set_dyn o x_sparse s).2.full_descriptors.cols) := by
  refine ⟨fun dd mode => rfl, ?_, ?_, ?_⟩
  · intro o s x y xs hlen hinv
    unfold update_model_dyn bindE
    split
    · split
      · exact hinv
      · next sp hsp =>
        simp only []
        split
        · exact hinv
        · next fd hfd =>
          try simp only []
          rw [(update_Sigma_alpha_dyn_data_const o _).1,
            (update_Sigma_alpha_dyn_data_const o _).2]
          show s.training_outputs.len + y.len = fd.cols
          rw [catCols_cols hfd]
          show s.training_outputs.len + y.len = s.full_descriptors.cols + x.cols
          rw [hinv, hlen]
    · exact hinv
  · intro o s x y hlen hinv
    unfold update_full_set_dyn bindE getCache
    split
    · exact hinv
    · next fd hfd =>
      try simp only []
      have hcols : fd.cols = s.full_descriptors.cols + x.cols := catCols_cols hfd
      repeat' (first
        | split
        | (simp only []
           split))
      all_goals
        exact show s.training_outputs.len + y.len = fd.cols by
          rw [hcols, hinv, hlen]
  · intro o s xs hinv
    rw [(update_sparse_set_dyn_data_const o xs s).1,
      (update_sparse_set_dyn_data_const o xs s).2]
    exact hinv

/-- Witness for the amended C4: a consistent one-point batch appended by
`update_full_set` to the concrete one-point model keeps the two counts
equal. -/
theorem C4_witness :
    (pvConst 1 1).len = (pm1 1).cols ∧
    sAfterFirst.training_outputs.len = sAfterFirst.full_descriptors.cols ∧
    (update_full_set_dyn trivOracle (pm1 1) (pvConst 1 1) sAfterFirst).2.training_outputs.len
      = (update_full_set_dyn trivOracle (pm1 1) (pvConst 1 1) sAfterFirst).2.full_descriptors.cols :=
  ⟨rfl, rfl,
   C4_counts_invariant.2.2.1 trivOracle sAfterFirst (pm1 1) (pvConst 1 1) rfl rfl⟩

/-- Counterexample to C4 as frozen: `update_full_set` on the concrete
one-point model with one training column but two outputs fails (at the
`alpha` recomputation), and after the failed call the model holds two full
columns but three training outputs — the count invariant does not hold
after every call. -/
theorem C4_counterexample :
    (update_full_set_dyn trivOracle (pm1 1) (pvConst 2 1) sAfterFirst).1
      = Except.error "matmul: vector dimension mismatch" ∧
    (update_full_set_dyn trivOracle (pm1 1) (pvConst 2 1) sAfterFirst).2.full_descriptors.cols
      = 2 ∧
    (update_full_set_dyn trivOracle (pm1 1) (pvConst 2 1) sAfterFirst).2.training_outputs.len
      = 3 :=
  ⟨rfl, rfl, rfl⟩
